import Mathlib

/-!
Verification of the Minsky counter-machine virtual machine (`src/lib.rs`).

The embedding follows the source directly:
* `Instruction` mirrors `enum Instruction`: register selectors are 8-bit
  values (`Fin 256`) and jump targets are 16-bit program-counter values
  (`Fin 65536`), exactly matching the `u8`/`u16` operand types.
* `Program` mirrors `struct Program`: the 256-entry `u64` register bank and
  the 65536-entry instruction array are modelled as total functions from the
  index types, and `ptr` is a `Fin 65536` (the `u16` program counter).
* `u64` register values are natural numbers; the increment `+= 1` is
  performed modulo `2 ^ 64` (Rust release-mode wraparound, which the design
  documents as intended), and `checked_sub(1)` becomes a match on the value.
* The `unreachable!` panic on a `Purged` instruction is modelled by the
  `Except.error` branch of `step`; all other branches return `Except.ok`.
-/

set_option maxRecDepth 100000

namespace Minsky

/-- Instruction set of the machine, from `enum Instruction` in the source:
`Halt`, `Increment(u8, u16)`, `Decrement(u8, u16, u16)` and the `Purged`
sentinel. -/
inductive Instruction where
  | Halt : Instruction
  | Increment : Fin 256 → Fin 65536 → Instruction
  | Decrement : Fin 256 → Fin 65536 → Fin 65536 → Instruction
  | Purged : Instruction
deriving DecidableEq, Repr

/-- The wraparound modulus of the 64-bit unsigned registers. -/
def u64Mod : Nat := 2 ^ 64

/-- Machine state, from `struct Program`: 256 registers (`[u64; 1 << 8]`),
65536 instruction slots (`[Instruction; 1 << 16]`) and the `u16`
program counter `ptr`. -/
structure Program where
  registers : Fin 256 → Nat
  instructions : Fin 65536 → Instruction
  ptr : Fin 65536

/-- Point update of the register bank: `registers[i] = v`. -/
def updReg (regs : Fin 256 → Nat) (i : Fin 256) (v : Nat) : Fin 256 → Nat :=
  fun j => if j = i then v else regs j

namespace Program

/-- `Program::empty()`: all instruction slots `Halt`, all registers `0`,
program counter `0`. -/
def empty : Program :=
  { registers := fun _ => 0
    instructions := fun _ => Instruction.Halt
    ptr := 0 }

/-- `Program::new(instructions)`: starting from `empty`, the `zip` of the
65536-slot array with the supplied sequence overwrites slot `i` with the
`i`-th supplied instruction for every `i` below both lengths; all other
slots keep `Halt`. -/
def new (l : List Instruction) : Program :=
  { empty with
    instructions := fun i =>
      if h : i.val < l.length then l.get ⟨i.val, h⟩ else Instruction.Halt }

/-- `Program::set_register(reg, value)`. -/
def set_register (p : Program) (reg : Fin 256) (value : Nat) : Program :=
  { p with registers := updReg p.registers reg value }

/-- `Program::get_register(reg)`. -/
def get_register (p : Program) (reg : Fin 256) : Nat :=
  p.registers reg

/-- `Program::step()`: dispatch on the instruction at the current program
counter.  `Halt` is a no-op; `Increment` adds 1 modulo `2 ^ 64` and jumps;
`Decrement` either subtracts 1 and jumps to the then-target (when the
register is positive, mirroring `checked_sub(1)`) or leaves the register
and jumps to the else-target; `Purged` is the `unreachable!` panic,
modelled as `Except.error`. -/
def step (p : Program) : Except String Program :=
  match p.instructions p.ptr with
  | Instruction.Halt => Except.ok p
  | Instruction.Increment reg target =>
      Except.ok { p with
        registers := updReg p.registers reg ((p.registers reg + 1) % u64Mod)
        ptr := target }
  | Instruction.Decrement reg thn els =>
      match p.registers reg with
      | 0 => Except.ok { p with ptr := els }
      | v + 1 => Except.ok { p with
          registers := updReg p.registers reg v
          ptr := thn }
  | Instruction.Purged => Except.error "Reached purged instruction"

/-- Iterated `step`: `n` consecutive transitions, propagating the fatal
`Purged` error. -/
def stepN (p : Program) : Nat → Except String Program
  | 0 => Except.ok p
  | n + 1 =>
    match p.step with
    | Except.ok q => stepN q n
    | Except.error e => Except.error e

/-- Loop body of `Program::run`: `fuel` remaining iterations, `count` steps
already executed.  Before each iteration the instruction at the current
program counter is compared against `Halt` and the loop returns early with
the count; otherwise one `step` is performed. -/
def runAux (p : Program) (fuel count : Nat) : Except String (Nat × Program) :=
  match fuel with
  | 0 => Except.ok (count, p)
  | f + 1 =>
    if p.instructions p.ptr = Instruction.Halt then
      Except.ok (count, p)
    else
      match p.step with
      | Except.ok q => runAux q f (count + 1)
      | Except.error e => Except.error e

/-- `Program::run(max_steps)`: up to `max_steps` iterations, returning the
number of steps actually executed together with the final state. -/
def run (p : Program) (max_steps : Nat) : Except String (Nat × Program) :=
  runAux p max_steps 0

/-- Status of the machine after `j` transitions: `some true` if it has
reached a `Halt` instruction, `some false` if it is still running, `none`
if a `Purged` instruction was hit on the way. -/
def statusAt (p : Program) (j : Nat) : Option Bool :=
  match p.stepN j with
  | Except.ok q => some (decide (q.instructions q.ptr = Instruction.Halt))
  | Except.error _ => none

/-- The machine halts after exactly `K` transitions: step `K` lands on a
`Halt` instruction and no earlier step does. -/
def haltsIn (p : Program) (K : Nat) : Prop :=
  p.statusAt K = some true ∧ ∀ j < K, p.statusAt j = some false

instance (p : Program) (K : Nat) : Decidable (p.haltsIn K) :=
  inferInstanceAs
    (Decidable (p.statusAt K = some true ∧ ∀ j < K, p.statusAt j = some false))

end Program

/-! Concrete machines used to witness the theorems below. -/

/-- One increment then halt: the machine halts in exactly one step. -/
def demoInc : Program := Program.new [Instruction.Increment 0 1]

/-- A decrement at slot 0 with register 0 initialised to 3. -/
def demoDec : Program :=
  (Program.new [Instruction.Decrement 0 5 7]).set_register 0 3

/-- A decrement at slot 0 whose register 3 is still 0. -/
def demoDecZero : Program := Program.new [Instruction.Decrement 3 5 7]

/-- An increment whose register is at the maximal 64-bit value. -/
def demoMax : Program :=
  (Program.new [Instruction.Increment 0 1]).set_register 0 (u64Mod - 1)

/-- A purged instruction at slot 0. -/
def demoPurged : Program := Program.new [Instruction.Purged]

/-- A two-instruction list used to witness the construction theorem. -/
def demoList : List Instruction := [Instruction.Increment 0 1, Instruction.Halt]

/-- The 6-instruction subtraction program of the `substract` test. -/
def subInstructions : List Instruction :=
  [Instruction.Decrement 1 1 2,
   Instruction.Increment 2 0,
   Instruction.Decrement 2 3 5,
   Instruction.Increment 1 4,
   Instruction.Decrement 0 2 2,
   Instruction.Halt]

/-- The subtraction machine with registers 0 and 1 initialised to 98 and 81,
as in the `substract` test. -/
def subSetup : Program :=
  ((Program.new subInstructions).set_register 0 98).set_register 1 81

/-! Claim theorems. -/

/-- Claim C10: with a zero budget, `run` returns 0 and the state — registers,
instructions and program counter alike — is returned entirely unchanged, for
every machine state, including one whose current instruction is `Purged`:
the loop body (and with it the `Halt` check and any possible panic) is never
entered. -/
theorem run_zero (p : Program) : p.run 0 = Except.ok (0, p) := rfl

/-- Claim C8: `set_register i v` followed by `get_register i` returns `v`;
every other register, the instruction array and the program counter are
unchanged; both operations are total over the full 8-bit index domain
(`Fin 256`), with no error path. -/
theorem set_get_register (p : Program) (i : Fin 256) (v : Nat) :
    (p.set_register i v).get_register i = v ∧
    (∀ j, j ≠ i → (p.set_register i v).get_register j = p.get_register j) ∧
    (p.set_register i v).instructions = p.instructions ∧
    (p.set_register i v).ptr = p.ptr := by
  refine ⟨?_, fun j hj => ?_, rfl, rfl⟩
  · simp [Program.set_register, Program.get_register, updReg]
  · simp [Program.set_register, Program.get_register, updReg, hj]

/-- Witness for the register theorem at a concrete machine and index. -/
theorem set_get_register_witness :
    (Program.empty.set_register 7 42).get_register 7 = 42 ∧
    (Program.empty.set_register 7 42).get_register 3 = Program.empty.get_register 3 :=
  ⟨(set_get_register Program.empty 7 42).1,
   (set_get_register Program.empty 7 42).2.1 3 (by decide)⟩

/-- Claim C6: when the current instruction is `Halt`, `step` returns the
state unchanged, and therefore any number of repeated steps leaves the
state unchanged as well. -/
theorem step_halt (p : Program) (h : p.instructions p.ptr = Instruction.Halt) :
    p.step = Except.ok p ∧ ∀ n, p.stepN n = Except.ok p := by
  have hs : p.step = Except.ok p := by
    unfold Program.step
    rw [h]
  refine ⟨hs, fun n => ?_⟩
  induction n with
  | zero => rfl
  | succ n ih =>
    show Program.stepN p (n + 1) = Except.ok p
    unfold Program.stepN
    rw [hs]
    exact ih

/-- Witness: the empty machine starts on `Halt` and is fixed by `step` and
by five iterated steps. -/
theorem step_halt_witness :
    Program.empty.step = Except.ok Program.empty ∧
    Program.empty.stepN 5 = Except.ok Program.empty :=
  ⟨(step_halt Program.empty rfl).1, (step_halt Program.empty rfl).2 5⟩

/-- Claim C2: when the current instruction is `Decrement r thn els`, a
positive register `r` is decremented by one and the program counter becomes
`thn`; a zero register is left untouched (no underflow) and the program
counter becomes `els`. -/
theorem step_decrement (p : Program) (r : Fin 256) (thn els : Fin 65536)
    (h : p.instructions p.ptr = Instruction.Decrement r thn els) :
    (0 < p.registers r →
      p.step = Except.ok { p with
        registers := updReg p.registers r (p.registers r - 1)
        ptr := thn }) ∧
    (p.registers r = 0 → p.step = Except.ok { p with ptr := els }) := by
  constructor
  · intro hpos
    obtain ⟨v, hv⟩ : ∃ v, p.registers r = v + 1 :=
      ⟨p.registers r - 1, by omega⟩
    simp only [Program.step, h, hv, Nat.add_sub_cancel]
  · intro hz
    simp only [Program.step, h, hz]

/-- Witness: both branches of the decrement theorem at concrete machines. -/
theorem step_decrement_witness :
    demoDec.step = Except.ok { demoDec with
      registers := updReg demoDec.registers 0 (demoDec.registers 0 - 1)
      ptr := 5 } ∧
    demoDecZero.step = Except.ok { demoDecZero with ptr := 7 } :=
  ⟨(step_decrement demoDec 0 5 7 (by decide)).1 (by decide),
   (step_decrement demoDecZero 3 5 7 (by decide)).2 (by decide)⟩

/-- Claim C3: when the current instruction is `Increment r target`, `step`
adds one to register `r` modulo `2 ^ 64` and jumps to `target`; in
particular a register at the maximal 64-bit value `2 ^ 64 - 1` wraps to 0. -/
theorem step_increment (p : Program) (r : Fin 256) (target : Fin 65536)
    (h : p.instructions p.ptr = Instruction.Increment r target) :
    p.step = Except.ok { p with
      registers := updReg p.registers r ((p.registers r + 1) % u64Mod)
      ptr := target } ∧
    (p.registers r = u64Mod - 1 →
      ∃ q, p.step = Except.ok q ∧ q.get_register r = 0 ∧ q.ptr = target) := by
  have hs : p.step = Except.ok { p with
      registers := updReg p.registers r ((p.registers r + 1) % u64Mod)
      ptr := target } := by
    unfold Program.step
    rw [h]
  refine ⟨hs, fun hmax => ⟨_, hs, ?_, rfl⟩⟩
  have : (p.registers r + 1) % u64Mod = 0 := by
    rw [hmax]
    simp [u64Mod]
  simp [Program.get_register, updReg, this]

/-- Witness: incrementing a register holding `2 ^ 64 - 1` yields 0. -/
theorem step_increment_witness :
    ∃ q, demoMax.step = Except.ok q ∧ q.get_register 0 = 0 ∧ q.ptr = 1 :=
  (step_increment demoMax 0 1 (by decide)).2 (by decide)

/-- Claim C4: when the current instruction is `Purged`, `step` is the fatal
`unreachable!` panic, modelled as `Except.error`: it never produces a
normal successor state, so the outcome is distinguishable from any
`Halt`-based completion (which is an `Except.ok`). -/
theorem step_purged (p : Program) (h : p.instructions p.ptr = Instruction.Purged) :
    p.step = Except.error "Reached purged instruction" ∧
    ∀ q, p.step ≠ Except.ok q := by
  have hs : p.step = Except.error "Reached purged instruction" := by
    unfold Program.step
    rw [h]
  exact ⟨hs, fun q hq => by rw [hs] at hq; exact Except.noConfusion hq⟩

/-- Witness: the machine with `Purged` at slot 0 fails abnormally. -/
theorem step_purged_witness :
    demoPurged.step = Except.error "Reached purged instruction" :=
  (step_purged demoPurged (by decide)).1

/-- Claim C5: constructing from a list puts the `i`-th supplied instruction
in slot `i` for every `i` below both the list length and 65536, fills every
slot at or beyond the list length with `Halt`, and for an over-long list the
resulting machine is exactly the machine built from the first 65536
instructions; construction is total — no error for any length. -/
theorem new_spec (l : List Instruction) :
    (∀ i (h1 : i < l.length) (h2 : i < 65536),
      (Program.new l).instructions ⟨i, h2⟩ = l.get ⟨i, h1⟩) ∧
    (∀ i (h2 : i < 65536), l.length ≤ i →
      (Program.new l).instructions ⟨i, h2⟩ = Instruction.Halt) ∧
    Program.new l = Program.new (l.take 65536) := by
  refine ⟨fun i h1 h2 => ?_, fun i h2 hge => ?_, ?_⟩
  · simp only [Program.new]
    rw [dif_pos h1]
  · simp only [Program.new]
    rw [dif_neg (by omega)]
  · have hfun : (fun i : Fin 65536 =>
        if h : i.val < l.length then l.get ⟨i.val, h⟩ else Instruction.Halt) =
        (fun i : Fin 65536 =>
          if h : i.val < (l.take 65536).length then (l.take 65536).get ⟨i.val, h⟩
          else Instruction.Halt) := by
      funext i
      by_cases hi : i.val < l.length
      · have hi2 : i.val < (l.take 65536).length := by
          rw [List.length_take]
          omega
        rw [dif_pos hi, dif_pos hi2]
        simp [List.getElem_take]
      · have hi2 : ¬ i.val < (l.take 65536).length := by
          rw [List.length_take]
          omega
        rw [dif_neg hi, dif_neg hi2]
    simp only [Program.new]
    rw [hfun]

/-- Witness: construction from the concrete two-instruction list copies
slot 0 and pads slot 2 with `Halt`. -/
theorem new_spec_witness :
    (Program.new demoList).instructions ⟨0, by decide⟩ = demoList.get ⟨0, by decide⟩ ∧
    (Program.new demoList).instructions ⟨2, by decide⟩ = Instruction.Halt :=
  ⟨(new_spec demoList).1 0 (by decide) (by decide),
   (new_spec demoList).2.1 2 (by decide) (by decide)⟩

/-- Claim C7: the empty machine has all 65536 instruction slots `Halt`,
program counter 0 and all 256 registers 0, and running it with any budget
of at least one step returns 0 with the state (hence every register)
unchanged. -/
theorem empty_spec :
    (∀ i, Program.empty.instructions i = Instruction.Halt) ∧
    Program.empty.ptr = 0 ∧
    (∀ r, Program.empty.registers r = 0) ∧
    (∀ N, 1 ≤ N → Program.empty.run N = Except.ok (0, Program.empty)) := by
  refine ⟨fun i => rfl, rfl, fun r => rfl, fun N hN => ?_⟩
  match N, hN with
  | n + 1, _ =>
    show Program.runAux Program.empty (n + 1) 0 = Except.ok (0, Program.empty)
    unfold Program.runAux
    have hc : Program.empty.instructions Program.empty.ptr = Instruction.Halt := rfl
    rw [if_pos hc]

/-- Witness: the empty machine run with budget 1 returns 0 unchanged. -/
theorem empty_spec_witness :
    Program.empty.run 1 = Except.ok (0, Program.empty) :=
  empty_spec.2.2.2 1 (by decide)

/-- Claim C9: the 6-instruction subtraction program with registers 0 and 1
set to 98 and 81, run with the unbounded budget `2 ^ 64 - 1` of the test,
executes exactly 407 steps, ends on a `Halt` instruction, and leaves
register 0 at 17 and register 1 at 81. -/
theorem subtraction_scenario :
    (subSetup.run 18446744073709551615).toOption.map
      (fun kq => (kq.1, kq.2.get_register 0, kq.2.get_register 1,
        decide (kq.2.instructions kq.2.ptr = Instruction.Halt)))
      = some (407, 17, 81, true) := by decide

/-! Lemmas about iterated stepping and the run loop, leading to the budget
accounting theorem for claim C1. -/

/-- Unfolding `stepN` on a successful first step. -/
theorem stepN_succ (p : Program) (n : Nat) (q : Program) (h : p.step = Except.ok q) :
    p.stepN (n + 1) = q.stepN n := by
  simp only [Program.stepN, h]

/-- Unfolding `stepN` on a failing first step. -/
theorem stepN_err (p : Program) (n : Nat) (e : String) (h : p.step = Except.error e) :
    p.stepN (n + 1) = Except.error e := by
  simp only [Program.stepN, h]

/-- Splitting an iterated step at an intermediate successful state. -/
theorem stepN_add (m : Nat) :
    ∀ (p q : Program) (n : Nat), p.stepN m = Except.ok q →
      p.stepN (m + n) = q.stepN n := by
  induction m with
  | zero =>
    intro p q n h
    have hpq : p = q := by
      have : Except.ok (ε := String) p = Except.ok q := h
      exact Except.ok.inj this
    rw [Nat.zero_add, hpq]
  | succ m ih =>
    intro p q n h
    cases hs : p.step with
    | error e =>
      rw [stepN_err p m e hs] at h
      exact Except.noConfusion h
    | ok q1 =>
      rw [stepN_succ p m q1 hs] at h
      rw [show m + 1 + n = (m + n) + 1 from by omega, stepN_succ p (m + n) q1 hs]
      exact ih q1 q n h

/-- The status after `j + 1` transitions is the status of the successor
after `j` transitions. -/
theorem statusAt_succ (p q : Program) (h : p.step = Except.ok q) (j : Nat) :
    p.statusAt (j + 1) = q.statusAt j := by
  unfold Program.statusAt
  rw [stepN_succ p j q h]

/-- Shifting the status along an iterated step. -/
theorem statusAt_shift (p q : Program) (N : Nat) (h : p.stepN N = Except.ok q)
    (j : Nat) : p.statusAt (N + j) = q.statusAt j := by
  unfold Program.statusAt
  rw [stepN_add N p q j h]

/-- A defined status yields the reached state and its halting flag. -/
theorem statusAt_ok (p : Program) (j : Nat) (b : Bool)
    (h : p.statusAt j = some b) :
    ∃ q, p.stepN j = Except.ok q ∧
      decide (q.instructions q.ptr = Instruction.Halt) = b := by
  unfold Program.statusAt at h
  cases hs : p.stepN j with
  | error e => rw [hs] at h; exact Option.noConfusion h
  | ok q =>
    rw [hs] at h
    exact ⟨q, rfl, Option.some.inj h⟩

/-- The count accumulator of the run loop is a pure offset on the result. -/
theorem runAux_shift (f : Nat) :
    ∀ (p : Program) (c : Nat),
      Program.runAux p f c =
        (Program.runAux p f 0).map (fun kq => (c + kq.1, kq.2)) := by
  induction f with
  | zero =>
    intro p c
    show Except.ok (c, p) = (Except.ok (ε := String) (0, p)).map _
    simp [Except.map]
  | succ f ih =>
    intro p c
    unfold Program.runAux
    by_cases hh : p.instructions p.ptr = Instruction.Halt
    · rw [if_pos hh, if_pos hh]
      simp [Except.map]
    · rw [if_neg hh, if_neg hh]
      cases hs : p.step with
      | error e => simp [Except.map]
      | ok q1 =>
        show Program.runAux q1 f (c + 1) =
          (Program.runAux q1 f (0 + 1)).map (fun kq => (c + kq.1, kq.2))
        rw [ih q1 (c + 1), ih q1 (0 + 1)]
        cases hr : Program.runAux q1 f 0 with
        | error e => simp [Except.map]
        | ok kq =>
          simp only [Except.map]
          have : c + 1 + kq.1 = c + (0 + 1 + kq.1) := by omega
          rw [this]

/-- Offsetting a successful run-loop result by the accumulator. -/
theorem runAux_shift_ok (f : Nat) (p : Program) (c k : Nat) (q : Program)
    (h : Program.runAux p f 0 = Except.ok (k, q)) :
    Program.runAux p f c = Except.ok (c + k, q) := by
  rw [runAux_shift f p c, h]
  rfl

/-- A machine that halts in exactly `K` steps makes `run N` with `N ≥ K`
stop at the halting state after reporting `K` executed steps. -/
theorem run_of_haltsIn :
    ∀ (K : Nat) (p : Program), p.statusAt K = some true →
      (∀ j, j < K → p.statusAt j = some false) →
      ∀ N, K ≤ N → ∃ q, p.stepN K = Except.ok q ∧
        q.instructions q.ptr = Instruction.Halt ∧ p.run N = Except.ok (K, q) := by
  intro K
  induction K with
  | zero =>
    intro p hK _ N _
    have hp : p.instructions p.ptr = Instruction.Halt := by
      have h0 : p.statusAt 0 = some (decide (p.instructions p.ptr = Instruction.Halt)) := rfl
      rw [h0] at hK
      exact of_decide_eq_true (Option.some.inj hK)
    refine ⟨p, rfl, hp, ?_⟩
    cases N with
    | zero => rfl
    | succ f =>
      show Program.runAux p (f + 1) 0 = Except.ok (0, p)
      unfold Program.runAux
      rw [if_pos hp]
  | succ K ih =>
    intro p hK hlt N hN
    obtain ⟨q1, hs1⟩ : ∃ q1, p.step = Except.ok q1 := by
      cases hs : p.step with
      | ok q1 => exact ⟨q1, rfl⟩
      | error e =>
        exfalso
        have : p.statusAt (K + 1) = none := by
          unfold Program.statusAt
          rw [stepN_err p K e hs]
        rw [this] at hK
        exact Option.noConfusion hK
    have hnh : ¬ p.instructions p.ptr = Instruction.Halt := by
      have h0 := hlt 0 (Nat.succ_pos K)
      have h0r : p.statusAt 0 = some (decide (p.instructions p.ptr = Instruction.Halt)) := rfl
      rw [h0r] at h0
      exact of_decide_eq_false (Option.some.inj h0)
    have hK2 : q1.statusAt K = some true := by
      rw [← statusAt_succ p q1 hs1 K]
      exact hK
    have hlt2 : ∀ j, j < K → q1.statusAt j = some false := by
      intro j hj
      rw [← statusAt_succ p q1 hs1 j]
      exact hlt (j + 1) (by omega)
    cases N with
    | zero => omega
    | succ f =>
      obtain ⟨q, hsN, hhq, hrun⟩ := ih q1 hK2 hlt2 f (by omega)
      refine ⟨q, ?_, hhq, ?_⟩
      · rw [stepN_succ p K q1 hs1]
        exact hsN
      · show Program.runAux p (f + 1) 0 = Except.ok (K + 1, q)
        unfold Program.runAux
        rw [if_neg hnh, hs1]
        show Program.runAux q1 f (0 + 1) = Except.ok (K + 1, q)
        rw [runAux_shift_ok f q1 (0 + 1) K q hrun]
        rw [show 0 + 1 + K = K + 1 from by omega]

/-- A run whose whole budget is spent on non-halted, non-failing states
returns exactly the budget and the state reached by that many steps. -/
theorem run_exhaust :
    ∀ (N : Nat) (p q : Program), (∀ j, j < N → p.statusAt j = some false) →
      p.stepN N = Except.ok q → p.run N = Except.ok (N, q) := by
  intro N
  induction N with
  | zero =>
    intro p q _ hstep
    have hpq : p = q := Except.ok.inj hstep
    rw [← hpq]
    rfl
  | succ N ih =>
    intro p q hlt hstep
    have hnh : ¬ p.instructions p.ptr = Instruction.Halt := by
      have h0 := hlt 0 (Nat.succ_pos N)
      have h0r : p.statusAt 0 = some (decide (p.instructions p.ptr = Instruction.Halt)) := rfl
      rw [h0r] at h0
      exact of_decide_eq_false (Option.some.inj h0)
    cases hs : p.step with
    | error e =>
      rw [stepN_err p N e hs] at hstep
      exact Except.noConfusion hstep
    | ok q1 =>
      rw [stepN_succ p N q1 hs] at hstep
      have hlt2 : ∀ j, j < N → q1.statusAt j = some false := by
        intro j hj
        rw [← statusAt_succ p q1 hs j]
        exact hlt (j + 1) (by omega)
      have hrun := ih q1 q hlt2 hstep
      show Program.runAux p (N + 1) 0 = Except.ok (N + 1, q)
      unfold Program.runAux
      rw [if_neg hnh, hs]
      show Program.runAux q1 N (0 + 1) = Except.ok (N + 1, q)
      rw [runAux_shift_ok N q1 (0 + 1) N q hrun]
      rw [show 0 + 1 + N = N + 1 from by omega]

/-- Claim C1: if the machine halts after exactly `K` transitions, then
`run N` with `N ≥ K` returns `K` and leaves the machine on a `Halt`
instruction, while `run N` with `N < K` returns exactly its exhausted
budget `N` and leaves the machine mid-execution, from where a subsequent
`run M` with enough budget returns the remaining `K - N` steps — the two
returned counts summing to `K` — and reaches the halt. -/
theorem run_budget_accounting (p : Program) (K : Nat) (h : p.haltsIn K) :
    (∀ N, K ≤ N → ∃ q, p.run N = Except.ok (K, q) ∧
      q.instructions q.ptr = Instruction.Halt) ∧
    (∀ N, N < K → ∃ q, p.run N = Except.ok (N, q) ∧
      ¬ q.instructions q.ptr = Instruction.Halt ∧
      N + (K - N) = K ∧
      ∀ M, K - N ≤ M → ∃ qf, q.run M = Except.ok (K - N, qf) ∧
        qf.instructions qf.ptr = Instruction.Halt) := by
  obtain ⟨hK, hlt⟩ := h
  constructor
  · intro N hN
    obtain ⟨q, _, hq, hrun⟩ := run_of_haltsIn K p hK hlt N hN
    exact ⟨q, hrun, hq⟩
  · intro N hN
    obtain ⟨q, hsN, hdq⟩ := statusAt_ok p N false (hlt N hN)
    have hnotq : ¬ q.instructions q.ptr = Instruction.Halt :=
      of_decide_eq_false hdq
    have hrun := run_exhaust N p q (fun j hj => hlt j (by omega)) hsN
    have hqK : q.statusAt (K - N) = some true := by
      rw [← statusAt_shift p q N hsN (K - N),
        show N + (K - N) = K from by omega]
      exact hK
    have hqlt : ∀ j, j < K - N → q.statusAt j = some false := by
      intro j hj
      rw [← statusAt_shift p q N hsN j]
      exact hlt (N + j) (by omega)
    refine ⟨q, hrun, hnotq, by omega, ?_⟩
    intro M hM
    obtain ⟨qf, _, hqf, hrunf⟩ := run_of_haltsIn (K - N) q hqK hqlt M hM
    exact ⟨qf, hrunf, hqf⟩

/-- Witness: the one-increment machine halts in exactly one step; applying
the budget theorem at budget 3 shows `run` reports one executed step. -/
theorem run_budget_accounting_witness :
    (demoInc.run 3).toOption.map Prod.fst = some 1 := by
  obtain ⟨q, hq, _⟩ := (run_budget_accounting demoInc 1 (by decide)).1 3 (by decide)
  rw [hq]
  rfl

end Minsky
